import Mathlib

/-!
# Verification of the crawl-and-clean pipeline of `vectoria.py` / `app.py`

A shallow embedding of the web-crawler and indexing pipeline of the
repository (class `MultiSiteVectorDB` in `vectoria.py`, plus the result
converter in `app.py`).  Text is modelled as `List Char`; the external
collaborators (HTTP fetching, HTML parsing, the vector index, the Python
per-process string hash, Unicode NFKC normalization) are parameters of the
embedded functions.  All definitions are computable so that concrete runs
can be checked by `decide`.
-/

namespace Vectoria

/-- Python `str` whitespace (the characters matched by `\s` / split on
`str.split()` for text strings). -/
def isPySpace (c : Char) : Bool :=
  c = ' ' ∨ c = '\t' ∨ c = '\n' ∨ c = '\x0b' ∨ c = '\x0c' ∨ c = '\r' ∨
  c = '\x1c' ∨ c = '\x1d' ∨ c = '\x1e' ∨ c = '\x1f' ∨ c = '\x85' ∨
  c = ' ' ∨ c = ' ' ∨
  (' ' ≤ c ∧ c ≤ ' ') ∨
  c = ' ' ∨ c = ' ' ∨ c = ' ' ∨ c = ' ' ∨ c = '　'

/-- The character class `[\x00-\x1f\x7f-\x9f]` removed by `_limpiar_texto`
(step 3, C0 and C1 control characters). -/
def esControl (c : Char) : Bool :=
  c.toNat ≤ 0x1f ∨ (0x7f ≤ c.toNat ∧ c.toNat ≤ 0x9f)

/-- The Unicode replacement character removed by `_limpiar_texto`. -/
def replacementChar : Char := '�'

/-- Substring test, Python `needle in hay`. -/
def hasInfix (needle : List Char) : List Char → Bool
  | [] => needle.isEmpty
  | c :: rest => needle.isPrefixOf (c :: rest) || hasInfix needle rest

/-- One step of Python `str.replace(key, rep)`: replace all non-overlapping
occurrences of `key`, scanning left to right.  The fuel argument makes the
recursion structural; `replaceAll` below instantiates it with the length of
the string, which is always sufficient. -/
def replaceAllF (key rep : List Char) : Nat → List Char → List Char
  | 0, s => s
  | _ + 1, [] => []
  | n + 1, c :: rest =>
    if key ≠ [] ∧ key.isPrefixOf (c :: rest) then
      rep ++ replaceAllF key rep n (rest.drop (key.length - 1))
    else
      c :: replaceAllF key rep n rest

/-- Python `s.replace(key, rep)`. -/
def replaceAll (key rep s : List Char) : List Char :=
  replaceAllF key rep s.length s

/-- Sequential application of a substitution table, Python
`for mal, bien in tabla: texto = texto.replace(mal, bien)`. -/
def aplicar_lista (tabla : List (List Char × List Char)) (s : List Char) : List Char :=
  tabla.foldl (fun t p => replaceAll p.1 p.2 t) s

/-- The `correcciones` table of `_limpiar_texto`, transcribed byte-exactly
from the source and then subjected to Python dict-literal semantics: a
repeated key keeps its first position and its last value.  In the source the
key written as a bare `Ã` occurs four times (values `Á`, `Í`, `Ñ`, `Ò`) and
the key `Ã"` twice (values `Ó`, `Ô`); the surviving values are `Ò` and `Ô`.
Some keys contain invisible characters: entry 3 ends in U+00AD (soft
hyphen) and entry 17 ends in a space. -/
def correcciones : List (List Char × List Char) :=
  [("Ã¡".toList, "á".toList), ("Ã©".toList, "é".toList),
   ("Ã­".toList, "í".toList), ("Ã³".toList, "ó".toList),
   ("Ãº".toList, "ú".toList), ("Ã±".toList, "ñ".toList),
   ("Ã¼".toList, "ü".toList), ("Ã£".toList, "ã".toList),
   ("Ã¶".toList, "ö".toList), ("Ã¤".toList, "ä".toList),
   ("Ã¢".toList, "â".toList), ("Ã»".toList, "û".toList),
   ("Ã®".toList, "î".toList), ("Ã¨".toList, "è".toList),
   ("Ãª".toList, "ê".toList), ("Ã§".toList, "ç".toList),
   ("Ã ".toList, "à".toList), ("Ã´".toList, "ô".toList),
   ("Ã¹".toList, "ù".toList), ("Ã«".toList, "ë".toList),
   ("Ã¯".toList, "ï".toList), ("Ã½".toList, "ý".toList),
   ("Ã¾".toList, "þ".toList), ("Ã¿".toList, "ÿ".toList),
   ("Ã".toList, "Ò".toList), ("Ã‰".toList, "É".toList),
   ("Ã\"".toList, "Ô".toList), ("Ãš".toList, "Ú".toList),
   ("Ãœ".toList, "Ü".toList), ("Â¿".toList, "¿".toList),
   ("Â¡".toList, "¡".toList), ("â‚¬".toList, "€".toList),
   ("Ã‚".toList, "Â".toList), ("Ãƒ".toList, "Ã".toList),
   ("Ã„".toList, "Ä".toList), ("Ã…".toList, "Å".toList),
   ("Ã†".toList, "Æ".toList), ("Ã‡".toList, "Ç".toList),
   ("Ãˆ".toList, "È".toList), ("ÃŠ".toList, "Ê".toList),
   ("Ã‹".toList, "Ë".toList), ("ÃŒ".toList, "Ì".toList),
   ("ÃŽ".toList, "Î".toList), ("Ã•".toList, "Õ".toList),
   ("Ã–".toList, "Ö".toList), ("Ã—".toList, "×".toList),
   ("Ã˜".toList, "Ø".toList), ("Ã™".toList, "Ù".toList),
   ("Ã›".toList, "Û".toList), ("Ãž".toList, "Þ".toList),
   ("ÃŸ".toList, "ß".toList), ("Ã¥".toList, "å".toList),
   ("Ã¦".toList, "æ".toList), ("Ã¬".toList, "ì".toList),
   ("Ã°".toList, "ð".toList), ("Ã²".toList, "ò".toList),
   ("Ãµ".toList, "õ".toList), ("Ã·".toList, "÷".toList),
   ("Ã¸".toList, "ø".toList)]

/-- Collapse every run of whitespace to a single space,
`re.sub(r'\s+', ' ', texto)`.  Fuel-structural; `collapseWs` instantiates
the fuel with the length of the string. -/
def collapseWsF : Nat → List Char → List Char
  | 0, s => s
  | _ + 1, [] => []
  | n + 1, c :: rest =>
    if isPySpace c then ' ' :: collapseWsF n (rest.dropWhile (fun d => isPySpace d))
    else c :: collapseWsF n rest

/-- `re.sub(r'\s+', ' ', texto)`. -/
def collapseWs (s : List Char) : List Char :=
  collapseWsF s.length s

/-- Python `str.strip()` (strip leading and trailing whitespace). -/
def pyStrip (s : List Char) : List Char :=
  (((s.dropWhile (fun d => isPySpace d)).reverse.dropWhile (fun d => isPySpace d)).reverse)

/-- `_limpiar_texto`: (1) the mojibake correction table, (2) Unicode NFKC
normalization — passed in as the parameter `nfkc`, since it is an external
library routine — (3) removal of C0/C1 control characters and of the
replacement character, (4) whitespace collapsing and stripping.  Empty
input returns the empty string. -/
def limpiar_texto (nfkc : List Char → List Char) (texto : List Char) : List Char :=
  if texto = [] then []
  else
    let t1 := aplicar_lista correcciones texto
    let t2 := nfkc t1
    let t3 := t2.filter (fun c => ¬ esControl c)
    let t4 := t3.filter (fun c => c ≠ replacementChar)
    pyStrip (collapseWs t4)

/-- `len(s.split())`: the number of maximal runs of non-whitespace
characters (Python `str.split()` with no separator). -/
def wordCount (s : List Char) : Nat :=
  (s.foldl
    (fun (st : Nat × Bool) c =>
      if isPySpace c then (st.1, false)
      else if st.2 then st else (st.1 + 1, true))
    (0, false)).1

/-! ## The URL model: `urllib.parse.urlparse` / `urljoin`

A faithful Lean transcription of the parts of CPython's `urllib.parse`
that `vectoria.py` calls: `urlsplit` (scheme detection, netloc split,
fragment and query split), `urlparse` (parameter split), `urlunsplit`,
`urlunparse` and `urljoin` (RFC 3986 style relative resolution).  The
`ValueError` paths for malformed IPv6 netlocs are not modelled; none of
the strings in this development reach them. -/

/-- The characters allowed in a URL scheme (`scheme_chars`). -/
def schemeChars : List Char :=
  "abcdefghijklmnopqrstuvwxyzABCDEFGHIJKLMNOPQRSTUVWXYZ0123456789+-.".toList

def isAsciiAlpha (c : Char) : Bool :=
  ('a' ≤ c ∧ c ≤ 'z') ∨ ('A' ≤ c ∧ c ≤ 'Z')

/-- ASCII lowering; the schemes and extensions compared in this development
are ASCII, so it agrees with Python `str.lower()` on them. -/
def asciiLower (s : List Char) : List Char :=
  s.map (fun c => if 'A' ≤ c ∧ c ≤ 'Z' then Char.ofNat (c.toNat + 32) else c)

/-- `_UNSAFE_URL_BYTES_TO_REMOVE`: tab, CR and LF are removed before parsing. -/
def removeUnsafe (s : List Char) : List Char :=
  s.filter (fun c => c ≠ '\t' ∧ c ≠ '\r' ∧ c ≠ '\n')

/-- Python `s.partition(ch)` restricted to the pieces `urlsplit` keeps:
text before the first occurrence, and text after it (empty when absent). -/
def splitAtFirst (ch : Char) (s : List Char) : List Char × List Char :=
  (s.takeWhile (fun c => c ≠ ch), (s.dropWhile (fun c => c ≠ ch)).drop 1)

structure SplitResult where
  scheme : List Char
  netloc : List Char
  path : List Char
  query : List Char
  fragment : List Char
deriving DecidableEq

structure ParseResult where
  scheme : List Char
  netloc : List Char
  path : List Char
  params : List Char
  query : List Char
  fragment : List Char
deriving DecidableEq

/-- CPython `urlsplit(url, scheme=defaultScheme)` (fragments allowed). -/
def urlsplit (url0 defaultScheme : List Char) : SplitResult :=
  let url := removeUnsafe url0
  let ds := removeUnsafe defaultScheme
  let p :=
    match url.findIdx? (fun c => c = ':') with
    | some i =>
      if 0 < i ∧ (match url with | c :: _ => isAsciiAlpha c | [] => false) = true ∧
          (url.take i).all (fun c => schemeChars.contains c) then
        (asciiLower (url.take i), url.drop (i + 1))
      else (ds, url)
    | none => (ds, url)
  let rest := p.2
  let q :=
    if rest.take 2 = "//".toList then
      ((rest.drop 2).takeWhile (fun c => c ≠ '/' ∧ c ≠ '?' ∧ c ≠ '#'),
       (rest.drop 2).dropWhile (fun c => c ≠ '/' ∧ c ≠ '?' ∧ c ≠ '#'))
    else ([], rest)
  let f := splitAtFirst '#' q.2
  let g := splitAtFirst '?' f.1
  ⟨p.1, q.1, g.1, g.2, f.2⟩

def uses_relative : List (List Char) :=
  ["", "ftp", "http", "gopher", "nntp", "imap", "wais", "file", "https",
   "shttp", "mms", "prospero", "rtsp", "rtspu", "sftp", "svn", "svn+ssh",
   "ws", "wss"].map (fun s => s.toList)

def uses_netloc : List (List Char) :=
  ["", "ftp", "http", "gopher", "nntp", "telnet", "imap", "wais", "file",
   "mms", "https", "shttp", "snews", "prospero", "rtsp", "rtspu", "rsync",
   "svn", "svn+ssh", "sftp", "nfs", "git", "git+ssh", "ws", "wss"].map
    (fun s => s.toList)

def uses_params : List (List Char) :=
  ["", "ftp", "hdl", "prospero", "http", "imap", "https", "shttp", "rtsp",
   "rtspu", "sip", "sips", "mms", "sftp", "tel"].map (fun s => s.toList)

/-- Index of the last occurrence of `ch` in `s`, if any. -/
def lastIdxOf (ch : Char) (s : List Char) : Option Nat :=
  (s.reverse.findIdx? (fun c => c = ch)).map (fun i => s.length - 1 - i)

/-- Index of the first occurrence of `ch` in `s` at position `start` or
later, if any (Python `s.find(ch, start)`). -/
def findFrom (ch : Char) (s : List Char) (start : Nat) : Option Nat :=
  ((s.drop start).findIdx? (fun c => c = ch)).map (fun i => start + i)

/-- CPython `_splitparams`: split the parameters off the last path segment. -/
def splitparams (s : List Char) : List Char × List Char :=
  if s.contains '/' then
    match findFrom ';' s ((lastIdxOf '/' s).getD 0) with
    | none => (s, [])
    | some i => (s.take i, s.drop (i + 1))
  else splitAtFirst ';' s

/-- CPython `urlparse(url, scheme=defaultScheme)`. -/
def urlparseD (url defaultScheme : List Char) : ParseResult :=
  let sr := urlsplit url defaultScheme
  let pp :=
    if sr.scheme ∈ uses_params ∧ sr.path.contains ';' then splitparams sr.path
    else (sr.path, [])
  ⟨sr.scheme, sr.netloc, pp.1, pp.2, sr.query, sr.fragment⟩

/-- CPython `urlparse(url)` with the default empty scheme. -/
def urlparse (url : List Char) : ParseResult :=
  urlparseD url []

/-- Python `s.split(sep)` for a one-character separator: keeps empty pieces,
always returns at least one piece.  Fuel-structural. -/
def splitSepF (ch : Char) : Nat → List Char → List (List Char)
  | 0, s => [s]
  | n + 1, s =>
    let a := s.takeWhile (fun c => c ≠ ch)
    let b := s.dropWhile (fun c => c ≠ ch)
    match b with
    | [] => [a]
    | _ :: tail => a :: splitSepF ch n tail

def splitSep (ch : Char) (s : List Char) : List (List Char) :=
  splitSepF ch s.length s

/-- Drop empty pieces, keeping the last element untouched (helper for
`filterMiddle`). -/
def filterMiddleAux : List (List Char) → List (List Char)
  | [] => []
  | [a] => [a]
  | a :: rest =>
    if a = [] then filterMiddleAux rest else a :: filterMiddleAux rest

/-- `segments[1:-1] = filter(None, segments[1:-1])`: drop empty segments,
keeping the first and last elements untouched. -/
def filterMiddle : List (List Char) → List (List Char)
  | [] => []
  | [a] => [a]
  | a :: rest => a :: filterMiddleAux rest

/-- The `resolved_path` loop of `urljoin`: `..` pops (ignoring underflow),
`.` is skipped, other segments are appended. -/
def resolveSegs (segs : List (List Char)) : List (List Char) :=
  segs.foldl
    (fun acc seg =>
      if seg = "..".toList then acc.dropLast
      else if seg = ".".toList then acc
      else acc ++ [seg])
    []

/-- CPython `urlunsplit`. -/
def urlunsplit (sr : SplitResult) : List Char :=
  let url := sr.path
  let url :=
    if sr.netloc ≠ [] ∨ url.take 2 = "//".toList then
      "//".toList ++ sr.netloc ++
        (if url ≠ [] ∧ url.take 1 ≠ "/".toList then '/' :: url else url)
    else url
  let url := if sr.scheme ≠ [] then sr.scheme ++ ':' :: url else url
  let url := if sr.query ≠ [] then url ++ '?' :: sr.query else url
  if sr.fragment ≠ [] then url ++ '#' :: sr.fragment else url

/-- CPython `urlunparse`. -/
def urlunparse (pr : ParseResult) : List Char :=
  let path := if pr.params ≠ [] then pr.path ++ ';' :: pr.params else pr.path
  urlunsplit ⟨pr.scheme, pr.netloc, path, pr.query, pr.fragment⟩

/-- CPython `urljoin(base, url)` (Python 3.5+, RFC 3986 style). -/
def urljoin (base url : List Char) : List Char :=
  if base = [] then url
  else if url = [] then base
  else
    let b := urlparseD base []
    let r := urlparseD url b.scheme
    if r.scheme ≠ b.scheme ∨ r.scheme ∉ uses_relative then url
    else
      let joinWith := fun (netloc : List Char) =>
        if r.path = [] ∧ r.params = [] then
          let query := if r.query = [] then b.query else r.query
          urlunparse ⟨r.scheme, netloc, b.path, b.params, query, r.fragment⟩
        else
          let baseParts := splitSep '/' b.path
          let baseParts :=
            if baseParts.getLast? ≠ some [] then baseParts.dropLast
            else baseParts
          let segments :=
            if r.path.take 1 = "/".toList then splitSep '/' r.path
            else filterMiddle (baseParts ++ splitSep '/' r.path)
          let resolved := resolveSegs segments
          let resolved :=
            if segments.getLast? = some (".".toList) ∨
                segments.getLast? = some ("..".toList) then
              resolved ++ [[]]
            else resolved
          let joined := List.intercalate ['/'] resolved
          urlunparse ⟨r.scheme, netloc, if joined = [] then ['/'] else joined,
            r.params, r.query, r.fragment⟩
      if r.scheme ∈ uses_netloc then
        if r.netloc ≠ [] then
          urlunparse ⟨r.scheme, r.netloc, r.path, r.params, r.query, r.fragment⟩
        else joinWith b.netloc
      else joinWith r.netloc

/-! ## Link harvesting: `_es_url_valida`, `_procesar_enlaces` -/

/-- The extension fragments rejected by `_es_url_valida`. -/
def extensiones : List (List Char) :=
  [".pdf", ".jpg", ".png", ".zip", ".exe", ".dmg"].map (fun s => s.toList)

/-- `_es_url_valida(url, dominio_base)`: requires a scheme and a netloc,
requires the netloc to equal `urlparse(dominio_base).netloc`, and rejects
any URL containing one of the extension fragments as a substring of the
lowercased full URL. -/
def es_url_valida (url dominio_base : List Char) : Bool :=
  let parsed := urlparse url
  if parsed.scheme = [] ∨ parsed.netloc = [] then false
  else if parsed.netloc ≠ (urlparse dominio_base).netloc then false
  else if extensiones.any (fun e => hasInfix e (asciiLower url)) then false
  else true

/-- Add to a set represented as a duplicate-free list (Python `set.add`). -/
def setAdd (s : List (List Char)) (x : List Char) : List (List Char) :=
  if x ∈ s then s else s ++ [x]

/-- `_procesar_enlaces(url, soup, dominio_base)`: the parsed document is
abstracted to its list of anchor `href` values; each href is stripped at
the first `#`, resolved against the page URL with `urljoin`, validated
with `_es_url_valida`, and collected into a set. -/
def procesar_enlaces (url : List Char) (hrefs : List (List Char))
    (dominio_base : List Char) : List (List Char) :=
  hrefs.foldl
    (fun links href =>
      let full := urljoin url (href.takeWhile (fun c => c ≠ '#'))
      if es_url_valida full dominio_base then setAdd links full else links)
    []

/-- Modelled from the claim's words, for comparison with
`procesar_enlaces`: "the resolved, fragment-stripped anchor URLs whose host
exactly matches the base domain and whose path does not end in a known
non-document extension". -/
def spec_harvest (url : List Char) (hrefs : List (List Char))
    (dominio_base : List Char) : List (List Char) :=
  (hrefs.map (fun href => urljoin url (href.takeWhile (fun c => c ≠ '#')))).filter
    (fun u =>
      (urlparse u).netloc = dominio_base ∧
      ¬ extensiones.any (fun e => e.isSuffixOf (asciiLower (urlparse u).path)))

/-! ## Page extraction and the crawler -/

/-- The parsed page as the extractor consumes it: `soup.title.string`,
the result of `_extraer_contenido_principal(soup)` (the selector walk over
the HTML is the parser collaborator's job), and the `content` attribute of
the meta-description tag when present. -/
structure ParsedDoc where
  titleText : Option (List Char)
  mainContent : Option (List Char)
  metaDescription : Option (List Char)
deriving DecidableEq

/-- The page record built by `extraer_pagina_individual`. -/
structure PageData where
  url : List Char
  titulo : List Char
  contenido : List Char
  descripcion : List Char
  ultima_actualizacion : List Char
deriving DecidableEq

/-- `urlparse(url).path.split('/')[-1] or url`: the title fallback. -/
def tituloFallback (url : List Char) : List Char :=
  let segs := splitSep '/' (urlparse url).path
  match segs.getLast? with
  | some seg => if seg = [] then url else seg
  | none => url

/-- `extraer_pagina_individual(url)`.  `fetch` models
`_obtener_contenido` (network and HTML parsing); `now` is the timestamp
the clock returns.  A page with no usable content, or whose content has
fewer than 20 words, is rejected with `none`. -/
def extraer_pagina_individual (nfkc : List Char → List Char)
    (fetch : List Char → Option ParsedDoc) (now : List Char)
    (url : List Char) : Option PageData :=
  match fetch url with
  | none => none
  | some soup =>
    let t0 := match soup.titleText with
      | some t => limpiar_texto nfkc t
      | none => []
    let title := if t0 = [] then tituloFallback url else t0
    match soup.mainContent with
    | none => none
    | some content =>
      if content = [] ∨ wordCount content < 20 then none
      else
        let descripcion := match soup.metaDescription with
          | some d => limpiar_texto nfkc d
          | none => []
        some ⟨url, title, content, descripcion, now⟩

/-- Set union for the frontier (`to_visit.update(...)`). -/
def listUnion (a b : List (List Char)) : List (List Char) :=
  a ++ b.filter (fun x => x ∉ a)

/-- The crawl loop of `rastrear_sitio_web`: pop a frontier URL (the Python
frontier is an unordered set; the model pops the head of the list), skip
it if visited, extract it, and while the page budget is not exhausted
harvest its links and merge the unvisited ones into the frontier.  The
fuel argument only makes the recursion structural: every theorem below
holds for every fuel. -/
def rastrear_loop (extract : List Char → Option PageData)
    (harvest : List Char → List (List Char)) (max_paginas : Nat) :
    Nat → List (List Char) → List (List Char) → List PageData → List PageData
  | 0, _, _, results => results
  | fuel + 1, to_visit, visited, results =>
    match to_visit with
    | [] => results
    | current :: rest =>
      if ¬ (max_paginas = 0 ∨ results.length < max_paginas) then results
      else if current ∈ visited then
        rastrear_loop extract harvest max_paginas fuel rest visited results
      else
        let visited2 := current :: visited
        match extract current with
        | some page =>
          let results2 := results ++ [page]
          let to_visit2 :=
            if max_paginas = 0 ∨ results2.length < max_paginas then
              listUnion rest ((harvest current).filter (fun l => l ∉ visited2))
            else rest
          rastrear_loop extract harvest max_paginas fuel to_visit2 visited2 results2
        | none =>
          rastrear_loop extract harvest max_paginas fuel rest visited2 results

/-- `rastrear_sitio_web(url_inicio, max_paginas)`.  `fetchLinks` models the
second `_obtener_contenido` call of the loop body together with
`soup.find_all('a', href=True)`: the anchor hrefs of the fetched page, or
`none` when the fetch fails. -/
def rastrear_sitio_web (nfkc : List Char → List Char)
    (fetch : List Char → Option ParsedDoc)
    (fetchLinks : List Char → Option (List (List Char)))
    (now : List Char) (url_inicio : List Char) (max_paginas : Nat)
    (fuel : Nat) : List PageData :=
  let dominio_base := (urlparse url_inicio).netloc
  rastrear_loop (extraer_pagina_individual nfkc fetch now)
    (fun u =>
      match fetchLinks u with
      | none => []
      | some hrefs => procesar_enlaces u hrefs dominio_base)
    max_paginas fuel [url_inicio] [] []

/-! ## Ingestion: `agregar_a_base_vectorial`, `indexar_fuente` -/

/-- `_detectar_idioma(url)`. -/
def detectar_idioma (url : List Char) : List Char :=
  if hasInfix "/es/".toList url ∨ (".es".toList).isSuffixOf url then "es".toList
  else if hasInfix "/en/".toList url ∨ (".com".toList).isSuffixOf url then "en".toList
  else "es".toList

/-- The document identifier `f"doc_{abs(hash(doc['url']))}"`.  `pyhash` is
the process's string hash: CPython randomizes it per process
(`PYTHONHASHSEED`), so it is a parameter of the embedding. -/
def docId (pyhash : List Char → Int) (url : List Char) : List Char :=
  "doc_".toList ++ (Nat.repr (pyhash url).natAbs).toList

/-- A metadata record submitted with a document. -/
structure DocMeta where
  url : List Char
  titulo : List Char
  fuente : List Char
  descripcion : List Char
  ultima_actualizacion : List Char
  idioma : List Char
deriving DecidableEq

/-- One `collection.add` call: the three parallel arrays. -/
structure Batch where
  ids : List (List Char)
  documents : List (List Char)
  metadatas : List DocMeta
deriving DecidableEq

/-- Slice a list into pieces of `bs` elements (`documentos[i:i+batch_size]`
for `i in range(0, len, batch_size)`).  Fuel-structural; when the fuel is
exhausted the remainder is kept as one piece, so flattening always
restores the input. -/
def chunksF (bs : Nat) : Nat → List PageData → List (List PageData)
  | _, [] => []
  | 0, l => [l]
  | n + 1, l => l.take bs :: chunksF bs n (l.drop bs)

def chunks (bs : Nat) (l : List PageData) : List (List PageData) :=
  chunksF bs l.length l

/-- `agregar_a_base_vectorial(documentos)`: batches of 100, each batch the
parallel arrays of ids, bodies and metadata.  The return value is the list
of `collection.add` calls made. -/
def agregar_a_base_vectorial (pyhash : List Char → Int)
    (documentos : List PageData) : List Batch :=
  (chunks 100 documentos).map
    (fun batch =>
      ⟨batch.map (fun d => docId pyhash d.url),
       batch.map (fun d => d.contenido),
       batch.map (fun d =>
        ⟨d.url, d.titulo, (urlparse d.url).netloc, d.descripcion,
         d.ultima_actualizacion, detectar_idioma d.url⟩)⟩)

/-! ## The source registry and the index record -/

/-- A configured source (`fuentes.json` entry). -/
structure Fuente where
  url : List Char
  nombre : List Char
  descripcion : List Char
  categoria : List Char
  fecha_agregada : List Char
  estado : List Char
  idioma : List Char
deriving DecidableEq

/-- The registry state: the in-memory lists (`self.sources`,
`self.indexados`) and the persisted files (`fuentes.json`,
`indexados.json`), written wholesale by `_guardar_fuentes` /
`_guardar_indexados`. -/
structure DBState where
  sources : List Fuente
  sourcesFile : List Fuente
  indexados : List (List Char × List Char)
  indexadosFile : List (List Char × List Char)
deriving DecidableEq

/-- Result of a registry operation (`exito`, `mensaje`). -/
structure OpResult where
  exito : Bool
  mensaje : List Char
deriving DecidableEq

/-- Python dict assignment `d[k] = v`: overwrite in place if the key
exists, else append. -/
def dictInsert (m : List (List Char × List Char)) (k v : List Char) :
    List (List Char × List Char) :=
  if m.any (fun p => p.1 = k) then
    m.map (fun p => if p.1 = k then (k, v) else p)
  else m ++ [(k, v)]

/-- Python dict lookup `d.get(k)`. -/
def dictGet (m : List (List Char × List Char)) (k : List Char) :
    Option (List Char) :=
  (m.find? (fun p => p.1 = k)).map (fun p => p.2)

/-- The number of entries stored under key `k`. -/
def countKey (m : List (List Char × List Char)) (k : List Char) : Nat :=
  (m.filter (fun p => p.1 = k)).length

/-- `agregar_fuente(url, nombre, ...)`: reject a URL without scheme or
netloc, reject a duplicate URL, otherwise append and persist. -/
def agregar_fuente (st : DBState) (url nombre descripcion categoria idioma
    today : List Char) : OpResult × DBState :=
  let parsed := urlparse url
  if parsed.scheme = [] ∨ parsed.netloc = [] then
    (⟨false, "URL inválida".toList⟩, st)
  else if st.sources.any (fun f => f.url = url) then
    (⟨false, "La fuente ya existe".toList⟩, st)
  else
    let nueva : Fuente := ⟨url, nombre, descripcion, categoria, today,
      "activo".toList, idioma⟩
    let sources2 := st.sources ++ [nueva]
    (⟨true, "Fuente agregada exitosamente".toList⟩,
     { st with sources := sources2, sourcesFile := sources2 })

/-- `eliminar_fuente(url)`: pop the first source with that URL, persist,
then delete the URL's entry from `indexados` (a dict, so the key is
unique) and persist it too. -/
def eliminar_fuente (st : DBState) (url : List Char) : OpResult × DBState :=
  if st.sources.any (fun f => f.url = url) then
    let sources2 := st.sources.eraseP (fun f => f.url = url)
    let st2 := { st with sources := sources2, sourcesFile := sources2 }
    let st3 :=
      if st.indexados.any (fun p => p.1 = url) then
        let ind := st.indexados.filter (fun p => ¬ p.1 = url)
        { st2 with indexados := ind, indexadosFile := ind }
      else st2
    (⟨true, "Fuente eliminada exitosamente".toList⟩, st3)
  else
    (⟨false, "Fuente no encontrada".toList⟩, st)

/-- Result of `indexar_fuente` (the fields the claims mention). -/
structure IndexarResult where
  exito : Bool
  documentos_indexados : Nat
deriving DecidableEq

/-- `indexar_fuente(url, max_paginas, profundidad)`: crawl, and on a
non-empty result ingest the documents and overwrite the `indexados`
timestamp; on an empty result report failure and change nothing.  Returns
the outcome, the new state and the `collection.add` calls made. -/
def indexar_fuente (nfkc : List Char → List Char)
    (fetch : List Char → Option ParsedDoc)
    (fetchLinks : List Char → Option (List (List Char)))
    (pyhash : List Char → Int) (st : DBState) (url : List Char)
    (max_paginas : Nat) (profundidad : Option Nat) (now : List Char)
    (fuel : Nat) : IndexarResult × DBState × List Batch :=
  let maxp := match profundidad with
    | some p => p
    | none => max_paginas
  let documentos := rastrear_sitio_web nfkc fetch fetchLinks now url maxp fuel
  if documentos = [] then (⟨false, 0⟩, st, [])
  else
    let batches := agregar_a_base_vectorial pyhash documentos
    let ind := dictInsert st.indexados url now
    (⟨true, documentos.length⟩,
     { st with indexados := ind, indexadosFile := ind }, batches)

/-! ## Search result formatting -/

/-- The unpacked result of one `collection.query` call (the `[0]` row of
each of `documents`, `metadatas`, `distances`). -/
structure QueryResults where
  documents : List (List Char)
  metadatas : List DocMeta
  distances : List ℚ
deriving DecidableEq

/-- A result as `buscar_en_todos_sitios` formats it. -/
structure ResultadoBusqueda where
  titulo : List Char
  contenido : List Char
  fuente : List Char
  url : List Char
  puntuacion : ℚ
deriving DecidableEq

def emptyDocMeta : DocMeta := ⟨[], [], [], [], [], []⟩

/-- `buscar_en_todos_sitios`: format each hit; the reported `puntuacion`
is `1.0 - distance` with no clamping. -/
def buscar_en_todos_sitios (qr : QueryResults) : List ResultadoBusqueda :=
  (List.range qr.documents.length).map
    (fun i =>
      let doc := qr.documents.getD i []
      let md := qr.metadatas.getD i emptyDocMeta
      ⟨md.titulo,
       if 500 < doc.length then doc.take 500 ++ "...".toList else doc,
       md.fuente, md.url, 1 - qr.distances.getD i 0⟩)

/-- A metadata record as `app.py` reads it back (`metadata.get` with
defaults, so every field may be absent). -/
structure MetaApp where
  titulo : Option (List Char)
  url : Option (List Char)
  fuente : Option (List Char)
  idioma : Option (List Char)
  categoria : Option (List Char)
  descripcion : Option (List Char)
  ultima_actualizacion : Option (List Char)
deriving DecidableEq

/-- A result as `convertir_resultados_chromadb` (app.py) formats it. -/
structure ResultadoApp where
  contenido : List Char
  titulo : List Char
  url : List Char
  fuente : List Char
  idioma : List Char
  categoria : List Char
  descripcion : List Char
  ultima_actualizacion : List Char
  puntuacion : ℚ
deriving DecidableEq

def emptyMetaApp : MetaApp := ⟨none, none, none, none, none, none, none⟩

/-- `convertir_resultados_chromadb` (app.py): missing metadata defaults,
missing distance defaults to `1.0`, and the score is clamped:
`puntuacion = max(0, 1 - distance)`. -/
def convertir_resultados_chromadb (documents : List (List Char))
    (metadatas : List MetaApp) (distances : List ℚ) : List ResultadoApp :=
  (List.range documents.length).map
    (fun i =>
      let doc := documents.getD i []
      let metadata := metadatas.getD i emptyMetaApp
      let distance := distances.getD i 1
      ⟨doc,
       metadata.titulo.getD ("Sin título".toList),
       metadata.url.getD [],
       metadata.fuente.getD ("Desconocida".toList),
       metadata.idioma.getD ("es".toList),
       metadata.categoria.getD ("General".toList),
       metadata.descripcion.getD [],
       metadata.ultima_actualizacion.getD ("Desconocido".toList),
       max 0 (1 - distance)⟩)

/-- A default result used with `List.getD` when stating positional facts
about `buscar_en_todos_sitios`. -/
def dummyBusqueda : ResultadoBusqueda := ⟨[], [], [], [], 0⟩

/-- A default result used with `List.getD` when stating positional facts
about `convertir_resultados_chromadb`. -/
def dummyApp : ResultadoApp := ⟨[], [], [], [], [], [], [], [], 0⟩

/-- The validator's conditions, spelled out: a nonempty scheme and host,
the host equal to the host of the *re-parse* of the base-domain string,
and no extension fragment occurring as a substring of the lowercased full
URL. -/
def valida_amended (u dominio_base : List Char) : Prop :=
  (urlparse u).scheme ≠ [] ∧ (urlparse u).netloc ≠ [] ∧
  (urlparse u).netloc = (urlparse dominio_base).netloc ∧
  ∀ e ∈ extensiones, hasInfix e (asciiLower u) = false

/-- No whitespace character other than a plain space. -/
def spacesOk (l : List Char) : Prop :=
  ∀ c ∈ l, isPySpace c = true → c = ' '

/-- No two adjacent whitespace characters. -/
def noDouble (l : List Char) : Prop :=
  List.Chain' (fun a b => isPySpace a = false ∨ isPySpace b = false) l

/-! ## Crawl loop invariants -/

/-- The loop never grows the result list past a positive page budget. -/
theorem rastrear_loop_length_le (extract : List Char → Option PageData)
    (harvest : List Char → List (List Char)) (maxp : Nat) (hm : 0 < maxp) :
    ∀ fuel tv vis res, res.length ≤ maxp →
      (rastrear_loop extract harvest maxp fuel tv vis res).length ≤ maxp := by
  intro fuel
  induction fuel with
  | zero => intro tv vis res h; simpa [rastrear_loop] using h
  | succ n ih =>
    intro tv vis res h
    cases tv with
    | nil => simpa [rastrear_loop] using h
    | cons current rest =>
      by_cases hb : maxp = 0 ∨ res.length < maxp
      · by_cases hv : current ∈ vis
        · simp only [rastrear_loop, hb, not_true_eq_false, if_false, hv, if_true]
          exact ih _ _ _ h
        · cases hx : extract current with
          | some page =>
            simp only [rastrear_loop, hb, not_true_eq_false, if_false, hv,
              if_true, hx]
            apply ih
            have hlt : res.length < maxp := by
              rcases hb with hb | hb
              · omega
              · exact hb
            simp only [List.length_append, List.length_cons, List.length_nil]
            omega
          | none =>
            simp only [rastrear_loop, hb, not_true_eq_false, if_false, hv,
              if_true, hx]
            exact ih _ _ _ h
      · simp only [rastrear_loop, hb, not_false_eq_true, if_true]
        exact h

/-- Every element of the loop's output was already accumulated or is a
successful extraction of its own URL. -/
theorem rastrear_loop_mem (extract : List Char → Option PageData)
    (harvest : List Char → List (List Char)) (maxp : Nat)
    (hext : ∀ u pd, extract u = some pd → pd.url = u) :
    ∀ fuel tv vis res r,
      r ∈ rastrear_loop extract harvest maxp fuel tv vis res →
      r ∈ res ∨ extract r.url = some r := by
  intro fuel
  induction fuel with
  | zero => intro tv vis res r h; exact Or.inl (by simpa [rastrear_loop] using h)
  | succ n ih =>
    intro tv vis res r h
    cases tv with
    | nil => exact Or.inl (by simpa [rastrear_loop] using h)
    | cons current rest =>
      by_cases hb : maxp = 0 ∨ res.length < maxp
      · by_cases hv : current ∈ vis
        · simp only [rastrear_loop, hb, not_true_eq_false, if_false, hv,
            if_true] at h
          exact ih _ _ _ _ h
        · cases hx : extract current with
          | some page =>
            simp only [rastrear_loop, hb, not_true_eq_false, if_false, hv,
              if_true, hx] at h
            rcases ih _ _ _ _ h with hr | hr
            · rcases List.mem_append.mp hr with hr | hr
              · exact Or.inl hr
              · have : r = page := by simpa using hr
                subst this
                have hu : r.url = current := hext _ _ hx
                exact Or.inr (by rw [hu]; exact hx)
            · exact Or.inr hr
          | none =>
            simp only [rastrear_loop, hb, not_true_eq_false, if_false, hv,
              if_true, hx] at h
            exact ih _ _ _ _ h
      · simp only [rastrear_loop, hb, not_false_eq_true, if_true] at h
        exact Or.inl h

/-- The URLs of the accumulated pages stay pairwise distinct: a popped URL
is added to the visited set before extraction, and every accumulated page
carries a visited URL. -/
theorem rastrear_loop_nodup (extract : List Char → Option PageData)
    (harvest : List Char → List (List Char)) (maxp : Nat)
    (hext : ∀ u pd, extract u = some pd → pd.url = u) :
    ∀ fuel tv vis res,
      (res.map PageData.url).Nodup → (∀ r ∈ res, r.url ∈ vis) →
      ((rastrear_loop extract harvest maxp fuel tv vis res).map
        PageData.url).Nodup := by
  intro fuel
  induction fuel with
  | zero => intro tv vis res h _; simpa [rastrear_loop] using h
  | succ n ih =>
    intro tv vis res hnd hcov
    cases tv with
    | nil => simpa [rastrear_loop] using hnd
    | cons current rest =>
      by_cases hb : maxp = 0 ∨ res.length < maxp
      · by_cases hv : current ∈ vis
        · simp only [rastrear_loop, hb, not_true_eq_false, if_false, hv, if_true]
          exact ih _ _ _ hnd hcov
        · cases hx : extract current with
          | some page =>
            simp only [rastrear_loop, hb, not_true_eq_false, if_false, hv,
              if_true, hx]
            have hu : page.url = current := hext _ _ hx
            apply ih
            · rw [List.map_append]
              rw [List.nodup_append]
              refine ⟨hnd, by simp, ?_⟩
              intro a ha hb2
              have : a = current := by
                simpa [hu] using hb2
              subst this
              rcases List.mem_map.mp ha with ⟨r, hr, hru⟩
              exact hv (hru ▸ hcov r hr)
            · intro r hr
              rcases List.mem_append.mp hr with hr | hr
              · exact List.mem_cons_of_mem _ (hcov r hr)
              · have : r = page := by simpa using hr
                subst this
                rw [hu]; exact List.mem_cons_self _ _
          | none =>
            simp only [rastrear_loop, hb, not_true_eq_false, if_false, hv,
              if_true, hx]
            exact ih _ _ _ hnd
              (fun r hr => List.mem_cons_of_mem _ (hcov r hr))
      · simp only [rastrear_loop, hb, not_false_eq_true, if_true]
        exact hnd

/-- A successful extraction reports the URL it was asked for. -/
theorem extraer_url_eq (nfkc : List Char → List Char)
    (fetch : List Char → Option ParsedDoc) (now u : List Char)
    (pd : PageData) :
    extraer_pagina_individual nfkc fetch now u = some pd → pd.url = u := by
  unfold extraer_pagina_individual
  cases hf : fetch u with
  | none => simp
  | some soup =>
    cases hc : soup.mainContent with
    | none => simp [hc]
    | some content =>
      simp only [hc]
      by_cases hw : content = [] ∨ wordCount content < 20
      · simp [hw]
      · simp only [hw, if_false]
        intro h
        cases h
        rfl

/-- Claim C1: for every seed URL, every positive bound `N`, and every
underlying site (extraction and link environment), the crawl
`rastrear_sitio_web(seed, N)` returns at most `N` pages. -/
theorem rastrear_sitio_web_length_le (nfkc : List Char → List Char)
    (fetch : List Char → Option ParsedDoc)
    (fetchLinks : List Char → Option (List (List Char)))
    (now seed : List Char) (N fuel : Nat) (hN : 0 < N) :
    (rastrear_sitio_web nfkc fetch fetchLinks now seed N fuel).length ≤ N := by
  unfold rastrear_sitio_web
  exact rastrear_loop_length_le _ _ _ hN _ _ _ _ (by simp)

theorem rastrear_sitio_web_length_le_witness :
    0 < 1 ∧
    (rastrear_sitio_web (fun s => s) (fun _ => none) (fun _ => none) []
      "https://a.b".toList 1 3).length ≤ 1 :=
  ⟨by decide,
   rastrear_sitio_web_length_le (fun s => s) (fun _ => none) (fun _ => none)
     [] ("https://a.b".toList) 1 3 (by decide)⟩

/-- Claim C10: in every invocation of `rastrear_sitio_web` the URLs of the
returned results are pairwise distinct: a URL is extracted at most once
per crawl, because every popped URL is checked against and added to the
visited set before processing. -/
theorem rastrear_sitio_web_urls_nodup (nfkc : List Char → List Char)
    (fetch : List Char → Option ParsedDoc)
    (fetchLinks : List Char → Option (List (List Char)))
    (now seed : List Char) (maxp fuel : Nat) :
    ((rastrear_sitio_web nfkc fetch fetchLinks now seed maxp fuel).map
      PageData.url).Nodup := by
  unfold rastrear_sitio_web
  exact rastrear_loop_nodup _ _ _ (fun u pd => extraer_url_eq nfkc fetch now u pd)
    _ _ _ _ (by simp) (by simp)

/-- Claim C9: a URL whose fetched page has no extracted main content, or
content of fewer than 20 words, is rejected by `extraer_pagina_individual`
(`None`), and consequently never appears among the URLs of any crawl's
result list. -/
theorem extraer_pagina_reject_short (nfkc : List Char → List Char)
    (fetch : List Char → Option ParsedDoc)
    (fetchLinks : List Char → Option (List (List Char)))
    (now url : List Char) (doc : ParsedDoc)
    (hf : fetch url = some doc)
    (hbad : doc.mainContent = none ∨
      ∃ c, doc.mainContent = some c ∧ wordCount c < 20) :
    extraer_pagina_individual nfkc fetch now url = none ∧
    ∀ seed maxp fuel, url ∉
      ((rastrear_sitio_web nfkc fetch fetchLinks now seed maxp fuel).map
        PageData.url) := by
  have hnone : extraer_pagina_individual nfkc fetch now url = none := by
    unfold extraer_pagina_individual
    rw [hf]
    rcases hbad with hb | ⟨c, hc, hw⟩
    · simp [hb]
    · simp [hc, Or.inr hw]
  refine ⟨hnone, ?_⟩
  intro seed maxp fuel hmem
  rcases List.mem_map.mp hmem with ⟨r, hr, hru⟩
  unfold rastrear_sitio_web at hr
  rcases rastrear_loop_mem _ _ _
      (fun u pd => extraer_url_eq nfkc fetch now u pd) _ _ _ _ _ hr with h | h
  · simp at h
  · rw [hru] at h
    rw [hnone] at h
    cases h

theorem extraer_pagina_reject_short_witness :
    ((fun (_ : List Char) => some (⟨none, some ("muy corto".toList), none⟩ :
        ParsedDoc)) "https://a.b/x".toList =
      some (⟨none, some ("muy corto".toList), none⟩ : ParsedDoc)) ∧
    extraer_pagina_individual (fun s => s)
      (fun _ => some ⟨none, some ("muy corto".toList), none⟩) []
      "https://a.b/x".toList = none ∧
    "https://a.b/x".toList ∉
      ((rastrear_sitio_web (fun s => s)
        (fun _ => some ⟨none, some ("muy corto".toList), none⟩)
        (fun _ => none) [] "https://a.b".toList 0 3).map PageData.url) := by
  have h := extraer_pagina_reject_short (fun s => s)
    (fun _ => some ⟨none, some ("muy corto".toList), none⟩) (fun _ => none)
    [] ("https://a.b/x".toList) ⟨none, some ("muy corto".toList), none⟩
    rfl (Or.inr ⟨"muy corto".toList, rfl, by decide⟩)
  exact ⟨rfl, h.1, h.2 ("https://a.b".toList) 0 3⟩

/-! ## Registry claims -/

/-- Claim C6: `agregar_fuente` fails (`exito = false`) and leaves the
whole registry state — in-memory list and persisted file — unchanged
whenever the URL is already present or does not parse to a scheme plus
host.  (In the source both conditions return before any mutation; the
surrounding `try/except` also converts any exception into a structured
failure, so none escapes.) -/
theorem agregar_fuente_fail_no_mutation (st : DBState)
    (url nombre descripcion categoria idioma today : List Char)
    (h : (urlparse url).scheme = [] ∨ (urlparse url).netloc = [] ∨
      url ∈ st.sources.map Fuente.url) :
    (agregar_fuente st url nombre descripcion categoria idioma today).1.exito
      = false ∧
    (agregar_fuente st url nombre descripcion categoria idioma today).2 = st := by
  unfold agregar_fuente
  by_cases hv : (urlparse url).scheme = [] ∨ (urlparse url).netloc = []
  · simp [hv]
  · have hmem : url ∈ st.sources.map Fuente.url := by
      rcases h with h | h | h
      · exact absurd (Or.inl h) hv
      · exact absurd (Or.inr h) hv
      · exact h
    have hany : st.sources.any (fun f => f.url = url) = true := by
      rcases List.mem_map.mp hmem with ⟨f, hf, hfu⟩
      exact List.any_eq_true.mpr ⟨f, hf, by simp [hfu]⟩
    simp [hv, hany]

theorem agregar_fuente_fail_no_mutation_witness :
    (("https://a.com".toList : List Char) ∈
      ([⟨"https://a.com".toList, [], [], [], [], [], []⟩] :
        List Fuente).map Fuente.url) ∧
    (agregar_fuente ⟨[⟨"https://a.com".toList, [], [], [], [], [], []⟩], [],
        [], []⟩ "https://a.com".toList [] [] [] [] []).1.exito = false ∧
    (agregar_fuente ⟨[⟨"https://a.com".toList, [], [], [], [], [], []⟩], [],
        [], []⟩ "https://a.com".toList [] [] [] [] []).2 =
      ⟨[⟨"https://a.com".toList, [], [], [], [], [], []⟩], [], [], []⟩ := by
  have h := agregar_fuente_fail_no_mutation
    ⟨[⟨"https://a.com".toList, [], [], [], [], [], []⟩], [], [], []⟩
    ("https://a.com".toList) [] [] [] [] []
    (Or.inr (Or.inr (by decide)))
  exact ⟨by decide, h.1, h.2⟩

/-- Erasing the first source with a given URL removes that URL entirely
when the registry's URLs are duplicate-free. -/
theorem url_not_mem_eraseP (l : List Fuente) (url : List Char)
    (hnd : (l.map Fuente.url).Nodup) :
    url ∉ ((l.eraseP (fun f => f.url = url)).map Fuente.url) := by
  induction l with
  | nil => simp
  | cons f rest ih =>
    rw [List.map_cons, List.nodup_cons] at hnd
    by_cases hf : f.url = url
    · rw [List.eraseP_cons_of_pos (by simp [hf])]
      rw [← hf]
      exact hnd.1
    · rw [List.eraseP_cons_of_neg (by simp [hf])]
      simp only [List.map_cons, List.mem_cons]
      push_neg
      exact ⟨fun he => hf he.symm, ih hnd.2⟩

/-- A filtered-out key is never found. -/
theorem dictGet_filter_ne (m : List (List Char × List Char))
    (url : List Char) :
    dictGet (m.filter (fun p => ¬ p.1 = url)) url = none := by
  induction m with
  | nil => simp [dictGet]
  | cons p rest ih =>
    by_cases hp : p.1 = url
    · simp only [List.filter_cons, hp]
      simpa using ih
    · rw [List.filter_cons]
      simp only [hp, decide_not, decide_eq_true_eq]
      simp [dictGet, List.find?_cons, hp, ih]

/-- If no entry has the key, lookup fails. -/
theorem dictGet_eq_none_of_not_mem (m : List (List Char × List Char))
    (url : List Char) (h : m.any (fun p => p.1 = url) = false) :
    dictGet m url = none := by
  unfold dictGet
  rw [List.find?_eq_none.mpr]
  · rfl
  · intro p hp
    simp only [List.any_eq_false] at h
    simpa using h p hp

/-- Claim C8: deleting a registered source URL succeeds, removes the
source from the registry (in memory and in the persisted file) and
removes any IndexRecord entry keyed by that URL, so a later
`indexar_fuente` finds no prior last-indexed timestamp. -/
theorem eliminar_fuente_eq_found (st : DBState) (url : List Char)
    (hany : st.sources.any (fun f => f.url = url) = true) :
    eliminar_fuente st url =
      (⟨true, "Fuente eliminada exitosamente".toList⟩,
       if st.indexados.any (fun p => p.1 = url) then
         ⟨st.sources.eraseP (fun f => f.url = url),
          st.sources.eraseP (fun f => f.url = url),
          st.indexados.filter (fun p => ¬ p.1 = url),
          st.indexados.filter (fun p => ¬ p.1 = url)⟩
       else
         ⟨st.sources.eraseP (fun f => f.url = url),
          st.sources.eraseP (fun f => f.url = url),
          st.indexados, st.indexadosFile⟩) := by
  unfold eliminar_fuente
  rw [if_pos (by simpa using hany)]

theorem eliminar_fuente_removes (st : DBState) (url : List Char)
    (hnd : (st.sources.map Fuente.url).Nodup)
    (hmem : url ∈ st.sources.map Fuente.url)
    (hfile : st.indexadosFile = st.indexados) :
    (eliminar_fuente st url).1.exito = true ∧
    url ∉ ((eliminar_fuente st url).2.sources.map Fuente.url) ∧
    (eliminar_fuente st url).2.sourcesFile =
      (eliminar_fuente st url).2.sources ∧
    dictGet (eliminar_fuente st url).2.indexados url = none ∧
    (eliminar_fuente st url).2.indexadosFile =
      (eliminar_fuente st url).2.indexados := by
  have hany : st.sources.any (fun f => f.url = url) = true := by
    rcases List.mem_map.mp hmem with ⟨f, hf, hfu⟩
    exact List.any_eq_true.mpr ⟨f, hf, by simp [hfu]⟩
  rw [eliminar_fuente_eq_found st url hany]
  cases hidx : st.indexados.any (fun p => p.1 = url) with
  | true =>
    rw [if_pos rfl]
    exact ⟨rfl, url_not_mem_eraseP _ _ hnd, rfl, dictGet_filter_ne _ _, rfl⟩
  | false =>
    rw [if_neg (by simp)]
    exact ⟨rfl, url_not_mem_eraseP _ _ hnd, rfl,
      dictGet_eq_none_of_not_mem _ _ hidx, hfile⟩

theorem eliminar_fuente_removes_witness :
    ((([⟨"https://a.com".toList, [], [], [], [], [], []⟩] :
        List Fuente).map Fuente.url).Nodup ∧
      ("https://a.com".toList : List Char) ∈
        ([⟨"https://a.com".toList, [], [], [], [], [], []⟩] :
          List Fuente).map Fuente.url) ∧
    (eliminar_fuente
        ⟨[⟨"https://a.com".toList, [], [], [], [], [], []⟩], [],
          [("https://a.com".toList, "2024".toList)],
          [("https://a.com".toList, "2024".toList)]⟩
        "https://a.com".toList).1.exito = true ∧
    ("https://a.com".toList : List Char) ∉
      ((eliminar_fuente
        ⟨[⟨"https://a.com".toList, [], [], [], [], [], []⟩], [],
          [("https://a.com".toList, "2024".toList)],
          [("https://a.com".toList, "2024".toList)]⟩
        "https://a.com".toList).2.sources.map Fuente.url) ∧
    dictGet (eliminar_fuente
        ⟨[⟨"https://a.com".toList, [], [], [], [], [], []⟩], [],
          [("https://a.com".toList, "2024".toList)],
          [("https://a.com".toList, "2024".toList)]⟩
        "https://a.com".toList).2.indexados "https://a.com".toList = none := by
  have h := eliminar_fuente_removes
    ⟨[⟨"https://a.com".toList, [], [], [], [], [], []⟩], [],
      [("https://a.com".toList, "2024".toList)],
      [("https://a.com".toList, "2024".toList)]⟩
    ("https://a.com".toList) (by decide) (by decide) rfl
  exact ⟨⟨by decide, by decide⟩, h.1, h.2.1, h.2.2.2.1⟩

/-! ## Scores -/

/-- Elements of a mapped range, with the index in bounds. -/
theorem getD_range_map {α : Type} (f : Nat → α) (n i : Nat) (d : α)
    (h : i < n) : (((List.range n).map f).getD i d) = f i := by
  rw [List.getD_eq_getElem?_getD, List.getElem?_map, List.getElem?_range h]
  rfl

/-- Counterexample to claim C3 as stated: at distance `2` the score
reported by `buscar_en_todos_sitios` is `1 - 2 = -1`, not
`max(0, 1 - 2) = 0`. -/
theorem buscar_puntuacion_counterexample :
    ((buscar_en_todos_sitios ⟨["d".toList], [emptyDocMeta], [2]⟩).getD 0
        dummyBusqueda).puntuacion = -1 ∧
    ((buscar_en_todos_sitios ⟨["d".toList], [emptyDocMeta], [2]⟩).getD 0
        dummyBusqueda).puntuacion ≠ max 0 (1 - (2 : ℚ)) := by
  constructor
  · norm_num [buscar_en_todos_sitios, getD_range_map]
  · norm_num [buscar_en_todos_sitios, getD_range_map]

/-- Claim C3, amended: `buscar_en_todos_sitios` (the search path the
backend exposes and the front end uses) reports `puntuacion = 1 - d`
with no clamping, so distances above `1` yield negative scores; the
clamped formula `max(0, 1 - d)`, never negative, is computed only by the
app-side fallback converter `convertir_resultados_chromadb`. -/
theorem puntuacion_formula :
    (∀ (qr : QueryResults) (i : Nat), i < qr.documents.length →
      ((buscar_en_todos_sitios qr).getD i dummyBusqueda).puntuacion =
        1 - qr.distances.getD i 0) ∧
    (∀ (documents : List (List Char)) (metadatas : List MetaApp)
        (distances : List ℚ) (i : Nat), i < documents.length →
      ((convertir_resultados_chromadb documents metadatas distances).getD i
          dummyApp).puntuacion = max 0 (1 - distances.getD i 1) ∧
      0 ≤ ((convertir_resultados_chromadb documents metadatas
          distances).getD i dummyApp).puntuacion) := by
  constructor
  · intro qr i h
    unfold buscar_en_todos_sitios
    rw [getD_range_map _ _ _ _ h]
  · intro documents metadatas distances i h
    unfold convertir_resultados_chromadb
    rw [getD_range_map _ _ _ _ h]
    exact ⟨rfl, le_max_left _ _⟩

theorem puntuacion_formula_witness :
    (0 < 1 ∧
      ((buscar_en_todos_sitios ⟨["d".toList], [emptyDocMeta], [(3 : ℚ) / 2]⟩).getD
          0 dummyBusqueda).puntuacion = 1 - (3 : ℚ) / 2) ∧
    ((convertir_resultados_chromadb ["d".toList] [] [(3 : ℚ) / 2]).getD 0
        dummyApp).puntuacion = max 0 (1 - (3 : ℚ) / 2) ∧
    0 ≤ ((convertir_resultados_chromadb ["d".toList] [] [(3 : ℚ) / 2]).getD 0
        dummyApp).puntuacion := by
  refine ⟨⟨by decide, ?_⟩, ?_⟩
  · have h := puntuacion_formula.1 ⟨["d".toList], [emptyDocMeta], [(3 : ℚ) / 2]⟩
      0 (by decide)
    simpa using h
  · have h := puntuacion_formula.2 ["d".toList] [] [(3 : ℚ) / 2] 0 (by decide)
    simpa using h

/-! ## Document identifiers and the IndexRecord -/

/-- Counterexample to claim C7 as stated: the document identifier is
`doc_` followed by `abs(hash(url))` for the *process's* string hash, and
CPython randomizes that hash per process (`PYTHONHASHSEED`): two runs
whose hash functions differ on the URL submit different identifiers for
the same URL. -/
theorem docId_not_run_independent :
    docId (fun _ => 0) "https://a.com".toList ≠
      docId (fun _ => 1) "https://a.com".toList := by decide

/-- Flattening the size-`bs` slices restores the document list. -/
theorem chunksF_flatten (bs : Nat) :
    ∀ fuel l, (chunksF bs fuel l).flatten = l := by
  intro fuel
  induction fuel with
  | zero =>
    intro l
    cases l with
    | nil => rfl
    | cons d rest => simp [chunksF]
  | succ n ih =>
    intro l
    cases l with
    | nil => rfl
    | cons d rest =>
      simp only [chunksF, List.flatten_cons, ih]
      exact List.take_append_drop _ _

/-- The identifiers submitted across all batches are, in order, exactly
`docId` of each document's URL. -/
theorem agregar_ids (pyhash : List Char → Int) (docs : List PageData) :
    ((agregar_a_base_vectorial pyhash docs).map Batch.ids).flatten =
      docs.map (fun d => docId pyhash d.url) := by
  unfold agregar_a_base_vectorial chunks
  rw [List.map_map]
  have h1 : (Batch.ids ∘ fun batch : List PageData =>
      (⟨batch.map (fun d => docId pyhash d.url),
        batch.map (fun d => d.contenido),
        batch.map (fun d =>
          ⟨d.url, d.titulo, (urlparse d.url).netloc, d.descripcion,
           d.ultima_actualizacion, detectar_idioma d.url⟩)⟩ : Batch)) =
      List.map (fun d => docId pyhash d.url) := rfl
  rw [h1, ← List.map_flatten, chunksF_flatten]

/-- Skipping a non-matching head entry. -/
theorem dictGet_cons_of_ne (p : List Char × List Char)
    (m : List (List Char × List Char)) (k : List Char) (h : ¬ p.1 = k) :
    dictGet (p :: m) k = dictGet m k := by
  simp [dictGet, List.find?_cons, h]

/-- Skipping a non-matching head entry in the count. -/
theorem countKey_cons_of_ne (p : List Char × List Char)
    (m : List (List Char × List Char)) (k : List Char) (h : ¬ p.1 = k) :
    countKey (p :: m) k = countKey m k := by
  simp [countKey, List.filter_cons, h]

/-- Overwriting a present key keeps exactly one entry for it, holding the
new value (helper for `dictInsert`). -/
theorem dict_overwrite_mem (k v : List Char) :
    ∀ m : List (List Char × List Char), (m.map Prod.fst).Nodup →
      k ∈ m.map Prod.fst →
      dictGet (m.map (fun p => if p.1 = k then (k, v) else p)) k = some v ∧
      countKey (m.map (fun p => if p.1 = k then (k, v) else p)) k = 1 := by
  intro m
  induction m with
  | nil => intro _ h; cases h
  | cons p rest ih =>
    intro hnd hmem
    rw [List.map_cons, List.nodup_cons] at hnd
    by_cases hp : p.1 = k
    · have hrest : ∀ q ∈ rest, ¬ q.1 = k := by
        intro q hq hqk
        exact hnd.1 (hp ▸ hqk ▸ List.mem_map_of_mem Prod.fst hq)
      have hmap : rest.map (fun p => if p.1 = k then (k, v) else p) = rest := by
        apply List.map_congr_left ?_ |>.trans (List.map_id _)
        intro q hq
        simp [hrest q hq]
      have hfil : rest.filter (fun p => decide (p.1 = k)) = [] := by
        apply List.filter_eq_nil_iff.mpr
        intro q hq
        simpa using hrest q hq
      constructor
      · simp [dictGet, List.find?_cons, hp]
      · rw [List.map_cons, if_pos hp]
        unfold countKey
        rw [List.filter_cons, hmap]
        simp [hfil]
    · have hmem2 : k ∈ rest.map Prod.fst := by
        rcases List.mem_cons.mp hmem with h | h
        · exact absurd h.symm hp
        · exact h
      have hih := ih hnd.2 hmem2
      rw [List.map_cons, if_neg hp]
      rw [dictGet_cons_of_ne _ _ _ hp, countKey_cons_of_ne _ _ _ hp]
      exact hih

/-- No entry for an absent key. -/
theorem countKey_eq_zero (m : List (List Char × List Char)) (k : List Char)
    (h : m.any (fun p => p.1 = k) = false) :
    countKey m k = 0 := by
  unfold countKey
  rw [List.filter_eq_nil_iff.mpr]
  · rfl
  · intro p hp
    simp only [List.any_eq_false] at h
    simpa using h p hp

/-- `d[k] = v` leaves exactly one entry for `k`, holding `v`, when the
dict's keys were duplicate-free. -/
theorem dictInsert_overwrite (m : List (List Char × List Char))
    (k v : List Char) (hnd : (m.map Prod.fst).Nodup) :
    dictGet (dictInsert m k v) k = some v ∧
    countKey (dictInsert m k v) k = 1 := by
  unfold dictInsert
  cases ha : m.any (fun p => p.1 = k) with
  | true =>
    rw [if_pos rfl]
    apply dict_overwrite_mem k v m hnd
    rcases List.any_eq_true.mp ha with ⟨p, hp, hpk⟩
    exact List.mem_map.mpr ⟨p, hp, by simpa using hpk⟩
  | false =>
    rw [if_neg (by simp)]
    constructor
    · unfold dictGet
      rw [List.find?_append]
      rw [List.find?_eq_none.mpr (fun p hp => by
        simp only [List.any_eq_false] at ha
        simpa using ha p hp)]
      simp [List.find?_cons]
    · unfold countKey
      rw [List.filter_append]
      have h0 : m.filter (fun p => decide (p.1 = k)) = [] := by
        apply List.filter_eq_nil_iff.mpr
        intro p hp
        simp only [List.any_eq_false] at ha
        simpa using ha p hp
      simp [h0, List.filter_cons]

/-- Claim C7, amended: for a fixed process hash `pyhash` the submitted
identifiers are a deterministic function of each document's URL — the
batches' id arrays flatten to `docId pyhash` of the crawled documents'
URLs, so re-indexing a URL in the same process submits the same
identifier — and `indexar_fuente` on a non-empty crawl overwrites the
IndexRecord timestamp for that URL, keeping a single entry with the new
value, rather than adding a second entry.  (Across separate runs the
hash, and hence the identifier, may differ: see the counterexample.) -/
theorem docId_deterministic_and_overwrite :
    (∀ (pyhash : List Char → Int) (docs : List PageData),
      ((agregar_a_base_vectorial pyhash docs).map Batch.ids).flatten =
        docs.map (fun d => docId pyhash d.url)) ∧
    (∀ nfkc fetch fetchLinks (pyhash : List Char → Int) (st : DBState)
        (url : List Char) (maxp : Nat) (prof : Option Nat) (now : List Char)
        (fuel : Nat),
      (st.indexados.map Prod.fst).Nodup →
      rastrear_sitio_web nfkc fetch fetchLinks now url
        (match prof with | some p => p | none => maxp) fuel ≠ [] →
      dictGet (indexar_fuente nfkc fetch fetchLinks pyhash st url maxp prof
          now fuel).2.1.indexados url = some now ∧
      countKey (indexar_fuente nfkc fetch fetchLinks pyhash st url maxp prof
          now fuel).2.1.indexados url = 1) := by
  constructor
  · exact agregar_ids
  · intro nfkc fetch fetchLinks pyhash st url maxp prof now fuel hnd hne
    unfold indexar_fuente
    rw [if_neg hne]
    exact dictInsert_overwrite st.indexados url now hnd

theorem docId_deterministic_and_overwrite_witness :
    (((agregar_a_base_vectorial (fun _ => 7)
        [⟨"https://a.b".toList, [], [], [], []⟩]).map Batch.ids).flatten =
      [docId (fun _ => 7) "https://a.b".toList]) ∧
    (rastrear_sitio_web (fun s => s)
        (fun _ => some ⟨none,
          some "a a a a a a a a a a a a a a a a a a a a".toList, none⟩)
        (fun _ => none) "t1".toList "https://a.b".toList 1 2 ≠ [] ∧
      dictGet (indexar_fuente (fun s => s)
          (fun _ => some ⟨none,
            some "a a a a a a a a a a a a a a a a a a a a".toList, none⟩)
          (fun _ => none) (fun _ => 7) ⟨[], [], [], []⟩ "https://a.b".toList
          1 none "t1".toList 2).2.1.indexados "https://a.b".toList =
        some ("t1".toList) ∧
      countKey (indexar_fuente (fun s => s)
          (fun _ => some ⟨none,
            some "a a a a a a a a a a a a a a a a a a a a".toList, none⟩)
          (fun _ => none) (fun _ => 7) ⟨[], [], [], []⟩ "https://a.b".toList
          1 none "t1".toList 2).2.1.indexados "https://a.b".toList = 1) := by
  have h2 := docId_deterministic_and_overwrite.2 (fun s => s)
    (fun _ => some ⟨none,
      some "a a a a a a a a a a a a a a a a a a a a".toList, none⟩)
    (fun _ => none) (fun _ => 7) ⟨[], [], [], []⟩ ("https://a.b".toList)
    1 none ("t1".toList) 2 (by decide) (by decide)
  exact ⟨docId_deterministic_and_overwrite.1 (fun _ => 7)
    [⟨"https://a.b".toList, [], [], [], []⟩], by decide, h2.1, h2.2⟩

/-! ## The link harvester -/

/-- Membership in `setAdd`. -/
theorem mem_setAdd (s : List (List Char)) (x u : List Char) :
    u ∈ setAdd s x ↔ u ∈ s ∨ u = x := by
  unfold setAdd
  by_cases hx : x ∈ s
  · rw [if_pos hx]
    constructor
    · exact Or.inl
    · rintro (h | rfl)
      · exact h
      · exact hx
  · rw [if_neg hx]
    simp

theorem es_url_valida_iff (u dominio_base : List Char) :
    es_url_valida u dominio_base = true ↔ valida_amended u dominio_base := by
  unfold es_url_valida valida_amended
  by_cases h1 : (urlparse u).scheme = [] ∨ (urlparse u).netloc = []
  · rw [if_pos h1]
    constructor
    · intro h; cases h
    · rintro ⟨ha, hb, _⟩
      rcases h1 with h1 | h1
      · exact absurd h1 ha
      · exact absurd h1 hb
  · push_neg at h1
    rw [if_neg (not_or.mpr ⟨h1.1, h1.2⟩)]
    by_cases h2 : (urlparse u).netloc ≠ (urlparse dominio_base).netloc
    · rw [if_pos h2]
      constructor
      · intro h; cases h
      · rintro ⟨_, _, heq, _⟩
        exact absurd heq h2
    · rw [if_neg h2]
      push_neg at h2
      by_cases h3 : extensiones.any
          (fun e => hasInfix e (asciiLower u)) = true
      · rw [if_pos h3]
        constructor
        · intro h; cases h
        · rintro ⟨_, _, _, hall⟩
          rcases List.any_eq_true.mp h3 with ⟨e, he, hinf⟩
          exact absurd hinf (by simp [hall e he])
      · rw [if_neg h3]
        have hall : ∀ e ∈ extensiones, hasInfix e (asciiLower u) = false := by
          intro e he
          have := List.any_eq_false.mp (by simpa using h3) e he
          simpa using this
        constructor
        · intro _
          exact ⟨h1.1, h1.2, h2, hall⟩
        · intro _
          rfl

/-- Membership in the harvester's fold, for an arbitrary accumulator. -/
theorem mem_harvest_foldl (url dominio_base : List Char) :
    ∀ (hrefs : List (List Char)) (acc : List (List Char)) (u : List Char),
      u ∈ hrefs.foldl
        (fun links href =>
          let full := urljoin url (href.takeWhile (fun c => c ≠ '#'))
          if es_url_valida full dominio_base then setAdd links full
          else links)
        acc ↔
      u ∈ acc ∨ ∃ h, h ∈ hrefs ∧
        u = urljoin url (h.takeWhile (fun c => c ≠ '#')) ∧
        es_url_valida u dominio_base = true := by
  intro hrefs
  induction hrefs with
  | nil => intro acc u; simp
  | cons h0 hs ih =>
    intro acc u
    simp only [List.foldl_cons]
    rw [ih]
    by_cases hv : es_url_valida (urljoin url
        (h0.takeWhile (fun c => c ≠ '#'))) dominio_base = true
    · rw [if_pos hv, mem_setAdd]
      constructor
      · rintro ((hu | rfl) | ⟨h, hh, hu, hvv⟩)
        · exact Or.inl hu
        · exact Or.inr ⟨h0, List.mem_cons_self _ _, rfl, hv⟩
        · exact Or.inr ⟨h, List.mem_cons_of_mem _ hh, hu, hvv⟩
      · rintro (hu | ⟨h, hh, hu, hvv⟩)
        · exact Or.inl (Or.inl hu)
        · rcases List.mem_cons.mp hh with rfl | hh
          · exact Or.inl (Or.inr hu)
          · exact Or.inr ⟨h, hh, hu, hvv⟩
    · rw [if_neg hv]
      constructor
      · rintro (hu | ⟨h, hh, hu, hvv⟩)
        · exact Or.inl hu
        · exact Or.inr ⟨h, List.mem_cons_of_mem _ hh, hu, hvv⟩
      · rintro (hu | ⟨h, hh, hu, hvv⟩)
        · exact Or.inl hu
        · rcases List.mem_cons.mp hh with rfl | hh
          · exact absurd (hu ▸ hvv) hv
          · exact Or.inr ⟨h, hh, hu, hvv⟩

/-- Claim C2, amended: the harvested set contains exactly the resolved,
fragment-stripped anchor URLs that parse to a nonempty scheme and host,
whose host equals the host of `urlparse(dominio_base)` — which is empty,
matching nothing, when the crawler passes a bare hostname as the base
domain — and whose lowercased full URL does not contain any of `.pdf`,
`.jpg`, `.png`, `.zip`, `.exe`, `.dmg` as a substring (not merely as a
path suffix); malformed hrefs contribute nothing. -/
theorem procesar_enlaces_mem_iff (url : List Char) (hrefs : List (List Char))
    (dominio_base u : List Char) :
    u ∈ procesar_enlaces url hrefs dominio_base ↔
      ∃ h, h ∈ hrefs ∧ u = urljoin url (h.takeWhile (fun c => c ≠ '#')) ∧
        valida_amended u dominio_base := by
  unfold procesar_enlaces
  rw [mem_harvest_foldl]
  simp only [List.not_mem_nil, false_or, es_url_valida_iff]

/-- Counterexample to claim C2 as stated: for the page
`https://example.com/a` with a single anchor `/b` and the base domain
string `example.com` (the bare hostname `rastrear_sitio_web` passes), the
claimed harvest contains `https://example.com/b` — same host, no
non-document extension — but `_procesar_enlaces` returns the empty set,
because `_es_url_valida` compares hosts against
`urlparse("example.com").netloc`, which is empty. -/
theorem procesar_enlaces_spec_counterexample :
    "https://example.com/b".toList ∈
      spec_harvest "https://example.com/a".toList ["/b".toList]
        "example.com".toList ∧
    "https://example.com/b".toList ∉
      procesar_enlaces "https://example.com/a".toList ["/b".toList]
        "example.com".toList := by
  constructor
  · decide
  · decide

/-! ## The text normalizer: substitution and idempotence -/

/-- A replacement pass leaves a string without any occurrence of the key
untouched. -/
theorem replaceAllF_no_occ (key rep : List Char) :
    ∀ fuel s, hasInfix key s = false → replaceAllF key rep fuel s = s := by
  intro fuel
  induction fuel with
  | zero => intro s _; rfl
  | succ n ih =>
    intro s hs
    cases s with
    | nil => rfl
    | cons c rest =>
      rw [hasInfix, Bool.or_eq_false_iff] at hs
      rw [replaceAllF, if_neg (fun hk => by
        rw [hk.2] at hs
        exact absurd hs.1 (by simp)), ih rest hs.2]

theorem replaceAll_no_occ (key rep s : List Char)
    (h : hasInfix key s = false) : replaceAll key rep s = s :=
  replaceAllF_no_occ key rep s.length s h

/-- Applying a whole table of substitutions whose keys do not occur is the
identity. -/
theorem aplicar_lista_no_occ (tabla : List (List Char × List Char)) :
    ∀ s, (∀ p ∈ tabla, hasInfix p.1 s = false) → aplicar_lista tabla s = s := by
  induction tabla with
  | nil => intro s _; rfl
  | cons p rest ih =>
    intro s hs
    unfold aplicar_lista
    rw [List.foldl_cons, replaceAll_no_occ _ _ _ (hs p (List.mem_cons_self _ _))]
    exact ih s (fun q hq => hs q (List.mem_cons_of_mem _ hq))

/-- Claim C5, amended: the substitution table is *not* order-insensitive
in general (see the counterexample: the bare `Ã` key rewrites a prefix of
the other keys), but every ordering of the table acts as the identity on
any string in which no correction key occurs. -/
theorem aplicar_lista_perm_invariant (l : List (List Char × List Char))
    (s : List Char) (hperm : l.Perm correcciones)
    (hno : ∀ p ∈ correcciones, hasInfix p.1 s = false) :
    aplicar_lista l s = s :=
  aplicar_lista_no_occ l s (fun p hp => hno p (hperm.mem_iff.mp hp))

theorem aplicar_lista_perm_invariant_witness :
    (correcciones.Perm correcciones ∧
      ∀ p ∈ correcciones, hasInfix p.1 "hola mundo".toList = false) ∧
    aplicar_lista correcciones "hola mundo".toList = "hola mundo".toList :=
  ⟨⟨List.Perm.refl _, by decide⟩,
   aplicar_lista_perm_invariant correcciones ("hola mundo".toList)
     (List.Perm.refl _) (by decide)⟩

/-- Counterexample to claim C5 as stated: reordering the table changes
the output.  In the source order the first entry rewrites `Ã¡` to `á`;
rotating that entry to the end lets the bare `Ã` key (present in the
table with value `Ò`) fire first, yielding `Ò¡` instead. -/
theorem correcciones_order_sensitive :
    (correcciones.rotate 1).Perm correcciones ∧
    aplicar_lista correcciones "Ã¡".toList = "á".toList ∧
    aplicar_lista (correcciones.rotate 1) "Ã¡".toList = "Ò¡".toList ∧
    aplicar_lista (correcciones.rotate 1) "Ã¡".toList ≠
      aplicar_lista correcciones "Ã¡".toList :=
  ⟨List.rotate_perm _ 1, by decide, by decide, by decide⟩

/-- Counterexample to claim C4 as stated: `_limpiar_texto` is not
idempotent.  On `ÂÂ¿` the only applicable correction `Â¿ → ¿` consumes
the second `Â` and leaves `Â¿`, a fresh occurrence of the same key, which
a second application rewrites to `¿`.  The NFKC step is instantiated with
the identity, which agrees with real NFKC here: every character involved
(`Â`, `¿`) is canonically composed and compatibility-free. -/
theorem limpiar_texto_not_idempotent :
    limpiar_texto (fun s => s) "ÂÂ¿".toList = "Â¿".toList ∧
    limpiar_texto (fun s => s) (limpiar_texto (fun s => s) "ÂÂ¿".toList) =
      "¿".toList ∧
    limpiar_texto (fun s => s) (limpiar_texto (fun s => s) "ÂÂ¿".toList) ≠
      limpiar_texto (fun s => s) "ÂÂ¿".toList := by
  refine ⟨by decide, by decide, by decide⟩

/-- Every character of the collapsed string is a space or came from the
input. -/
theorem mem_collapseWsF :
    ∀ fuel l (c : Char), c ∈ collapseWsF fuel l → c = ' ' ∨ c ∈ l := by
  intro fuel
  induction fuel with
  | zero => intro l c h; exact Or.inr h
  | succ n ih =>
    intro l c h
    cases l with
    | nil => cases h
    | cons d rest =>
      rw [collapseWsF] at h
      by_cases hd : isPySpace d = true
      · rw [if_pos hd] at h
        rcases List.mem_cons.mp h with rfl | h
        · exact Or.inl rfl
        · rcases ih _ _ h with h | h
          · exact Or.inl h
          · exact Or.inr (List.mem_cons_of_mem _
              ((List.dropWhile_sublist _).mem h))
      · rw [if_neg hd] at h
        rcases List.mem_cons.mp h with rfl | h
        · exact Or.inr (List.mem_cons_self _ _)
        · rcases ih _ _ h with h | h
          · exact Or.inl h
          · exact Or.inr (List.mem_cons_of_mem _ h)

/-- The head that survives `dropWhile` fails the predicate. -/
theorem dropWhile_head_false (p : Char → Bool) :
    ∀ l : List Char, ∀ c ∈ (l.dropWhile p).head?, p c = false := by
  intro l
  induction l with
  | nil => intro c h; cases h
  | cons d rest ih =>
    intro c h
    by_cases hd : p d = true
    · rw [List.dropWhile_cons_of_pos hd] at h
      exact ih c h
    · rw [List.dropWhile_cons_of_neg hd] at h
      cases h
      simpa using hd

/-- `dropWhile` is the identity when the head already fails the
predicate. -/
theorem dropWhile_eq_self (p : Char → Bool) (l : List Char)
    (h : ∀ c ∈ l.head?, p c = false) : l.dropWhile p = l := by
  cases l with
  | nil => rfl
  | cons d rest =>
    exact List.dropWhile_cons_of_neg (by simp [h d rfl])

/-- Collapsing preserves a non-whitespace head. -/
theorem collapseWsF_head (fuel : Nat) (l : List Char)
    (h : ∀ c ∈ l.head?, isPySpace c = false) :
    ∀ c ∈ (collapseWsF fuel l).head?, isPySpace c = false := by
  cases l with
  | nil =>
    cases fuel with
    | zero => intro c hc; cases hc
    | succ n => intro c hc; cases hc
  | cons d rest =>
    cases fuel with
    | zero => exact h
    | succ n =>
      rw [collapseWsF, if_neg (by simp [h d rfl])]
      exact h

/-- The collapsed string has only plain spaces as whitespace. -/
theorem collapseWsF_spacesOk :
    ∀ fuel l, l.length ≤ fuel → spacesOk (collapseWsF fuel l) := by
  intro fuel
  induction fuel with
  | zero =>
    intro l hl
    rw [List.length_eq_zero.mp (Nat.le_zero.mp hl)]
    intro c hc
    cases hc
  | succ n ih =>
    intro l hl
    cases l with
    | nil => intro c hc; cases hc
    | cons d rest =>
      rw [collapseWsF]
      by_cases hd : isPySpace d = true
      · rw [if_pos hd]
        intro c hc hsp
        rcases List.mem_cons.mp hc with rfl | hc
        · rfl
        · exact ih _ (le_trans ((List.dropWhile_sublist _).length_le)
            (Nat.le_of_succ_le_succ hl)) c hc hsp
      · rw [if_neg hd]
        intro c hc hsp
        rcases List.mem_cons.mp hc with rfl | hc
        · exact absurd hsp (by simpa using hd)
        · exact ih _ (Nat.le_of_succ_le_succ hl) c hc hsp

/-- The collapsed string has no two adjacent whitespace characters. -/
theorem collapseWsF_noDouble :
    ∀ fuel l, l.length ≤ fuel → noDouble (collapseWsF fuel l) := by
  intro fuel
  induction fuel with
  | zero =>
    intro l hl
    rw [List.length_eq_zero.mp (Nat.le_zero.mp hl)]
    exact List.chain'_nil
  | succ n ih =>
    intro l hl
    cases l with
    | nil => exact List.chain'_nil
    | cons d rest =>
      rw [collapseWsF]
      unfold noDouble
      by_cases hd : isPySpace d = true
      · rw [if_pos hd]
        have hlen : (rest.dropWhile (fun c => isPySpace c)).length ≤ n :=
          le_trans ((List.dropWhile_sublist _).length_le)
            (Nat.le_of_succ_le_succ hl)
        rw [List.chain'_cons']
        refine ⟨?_, ih _ hlen⟩
        intro b hb
        exact Or.inr (collapseWsF_head n _
          (dropWhile_head_false _ rest) b hb)
      · rw [if_neg hd]
        rw [List.chain'_cons']
        refine ⟨fun b _ => Or.inl (by simpa using hd),
          ih _ (Nat.le_of_succ_le_succ hl)⟩

/-- Collapsing is the identity on an already-collapsed string. -/
theorem collapseWsF_id :
    ∀ fuel l, spacesOk l → noDouble l → collapseWsF fuel l = l := by
  intro fuel
  induction fuel with
  | zero => intro l _ _; rfl
  | succ n ih =>
    intro l hsp hnd
    cases l with
    | nil => rfl
    | cons d rest =>
      rw [collapseWsF]
      by_cases hd : isPySpace d = true
      · rw [if_pos hd]
        have hd' : d = ' ' := hsp d (List.mem_cons_self _ _) hd
        have hrest : rest.dropWhile (fun c => isPySpace c) = rest := by
          apply dropWhile_eq_self
          intro c hc
          have := (List.chain'_cons'.mp hnd).1 c hc
          rcases this with h | h
          · exact absurd hd (by simp [h])
          · exact h
        rw [hrest, hd']
        rw [ih rest (fun c hc => hsp c (List.mem_cons_of_mem _ hc))
          (List.chain'_cons'.mp hnd).2]
      · rw [if_neg hd]
        rw [ih rest (fun c hc => hsp c (List.mem_cons_of_mem _ hc))
          (List.chain'_cons'.mp hnd).2]

/-- Characters survive `pyStrip` from the original string. -/
theorem mem_pyStrip (l : List Char) (c : Char) (h : c ∈ pyStrip l) :
    c ∈ l := by
  unfold pyStrip at h
  rw [List.mem_reverse] at h
  have h2 := (List.dropWhile_sublist _).mem h
  rw [List.mem_reverse] at h2
  exact (List.dropWhile_sublist _).mem h2

/-- `Chain'` survives `dropWhile`. -/
theorem chain'_dropWhile {R : Char → Char → Prop} (p : Char → Bool) :
    ∀ l : List Char, List.Chain' R l → List.Chain' R (l.dropWhile p) := by
  intro l
  induction l with
  | nil => intro h; exact h
  | cons d rest ih =>
    intro h
    by_cases hd : p d = true
    · rw [List.dropWhile_cons_of_pos hd]
      exact ih h.tail
    · rw [List.dropWhile_cons_of_neg hd]
      exact h

/-- `noDouble` is symmetric, so it survives reversal. -/
theorem noDouble_reverse (l : List Char) (h : noDouble l) :
    noDouble l.reverse := by
  unfold noDouble at h ⊢
  rw [List.chain'_reverse]
  exact List.Chain'.imp (fun a b hab => Or.symm hab) h

/-- The last element that survives `dropWhile` is the original last
element. -/
theorem getLast?_dropWhile (p : Char → Bool) :
    ∀ l : List Char, l.dropWhile p ≠ [] →
      (l.dropWhile p).getLast? = l.getLast? := by
  intro l
  induction l with
  | nil => intro h; exact absurd rfl h
  | cons d rest ih =>
    intro h
    by_cases hd : p d = true
    · rw [List.dropWhile_cons_of_pos hd] at h ⊢
      rw [ih h]
      cases rest with
      | nil => exact absurd (by simp) h
      | cons e es => rfl
    · rw [List.dropWhile_cons_of_neg hd]

/-- `pyStrip` is the identity when neither end is whitespace. -/
theorem pyStrip_eq_self (l : List Char)
    (hhead : ∀ c ∈ l.head?, isPySpace c = false)
    (hlast : ∀ c ∈ l.getLast?, isPySpace c = false) : pyStrip l = l := by
  unfold pyStrip
  rw [dropWhile_eq_self _ l hhead]
  rw [dropWhile_eq_self _ l.reverse (by
    intro c hc
    rw [List.head?_reverse] at hc
    exact hlast c hc)]
  exact List.reverse_reverse l

/-- The stripped string starts with a non-whitespace character. -/
theorem pyStrip_head (z : List Char) :
    ∀ c ∈ (pyStrip z).head?, isPySpace c = false := by
  intro c hc
  unfold pyStrip at hc
  rw [List.head?_reverse] at hc
  by_cases hb : (z.dropWhile (fun d => isPySpace d)).reverse.dropWhile
      (fun d => isPySpace d) = []
  · rw [hb] at hc
    cases hc
  · rw [getLast?_dropWhile _ _ hb, List.getLast?_reverse] at hc
    exact dropWhile_head_false _ z c hc

/-- The stripped string ends with a non-whitespace character. -/
theorem pyStrip_last (z : List Char) :
    ∀ c ∈ (pyStrip z).getLast?, isPySpace c = false := by
  intro c hc
  unfold pyStrip at hc
  rw [List.getLast?_reverse] at hc
  exact dropWhile_head_false _ _ c hc

/-- The stripped string inherits `noDouble`. -/
theorem pyStrip_noDouble (z : List Char) (h : noDouble z) :
    noDouble (pyStrip z) := by
  unfold pyStrip
  apply noDouble_reverse
  apply chain'_dropWhile
  apply noDouble_reverse
  apply chain'_dropWhile
  exact h

/-- The let-free unfolding of `_limpiar_texto` on non-empty input. -/
theorem limpiar_texto_eq (nfkc : List Char → List Char) (t : List Char)
    (h : ¬ t = []) :
    limpiar_texto nfkc t =
      pyStrip (collapseWs (((nfkc (aplicar_lista correcciones t)).filter
        (fun c => ¬ esControl c)).filter (fun c => c ≠ replacementChar))) := by
  unfold limpiar_texto
  rw [if_neg h]

/-- Claim C4, amended: `_limpiar_texto` is idempotent on every input
whose cleaned form contains no occurrence of a correction key and is a
fixpoint of the Unicode normalization step (real NFKC is idempotent, so
the second condition holds for the library function; the first fails for
mojibake remnants such as the `ÂÂ¿` counterexample). -/
theorem limpiar_texto_idempotent_of_clean (nfkc : List Char → List Char)
    (x : List Char)
    (hno : ∀ p ∈ correcciones,
      hasInfix p.1 (limpiar_texto nfkc x) = false)
    (hnf : nfkc (limpiar_texto nfkc x) = limpiar_texto nfkc x) :
    limpiar_texto nfkc (limpiar_texto nfkc x) = limpiar_texto nfkc x := by
  by_cases hy : limpiar_texto nfkc x = []
  · rw [hy]
    unfold limpiar_texto
    rw [if_pos rfl]
  by_cases hx : x = []
  · exact absurd (by rw [hx]; unfold limpiar_texto; rw [if_pos rfl]) hy
  set y := limpiar_texto nfkc x with hydef
  have hyeq := limpiar_texto_eq nfkc x hx
  set T := ((nfkc (aplicar_lista correcciones x)).filter
    (fun c => ¬ esControl c)).filter (fun c => c ≠ replacementChar) with hT
  have hTc : ∀ c ∈ T, esControl c = false ∧ ¬ c = replacementChar := by
    intro c hc
    rw [hT] at hc
    have h2 := List.mem_filter.mp hc
    have h3 := List.mem_filter.mp h2.1
    exact ⟨by simpa using h3.2, by simpa using h2.2⟩
  have hyc : ∀ c ∈ y, esControl c = false ∧ ¬ c = replacementChar := by
    intro c hc
    rw [hydef, hyeq] at hc
    have h2 := mem_pyStrip _ _ hc
    rcases mem_collapseWsF _ _ _ h2 with rfl | h3
    · exact ⟨by decide, by decide⟩
    · exact hTc c h3
  have hfil1 : y.filter (fun c => ¬ esControl c) = y := by
    apply List.filter_eq_self.mpr
    intro c hc
    simpa using (hyc c hc).1
  have hfil2 : y.filter (fun c => c ≠ replacementChar) = y := by
    apply List.filter_eq_self.mpr
    intro c hc
    simpa using (hyc c hc).2
  have hzsp : spacesOk (collapseWs T) := collapseWsF_spacesOk _ _ le_rfl
  have hznd : noDouble (collapseWs T) := collapseWsF_noDouble _ _ le_rfl
  have hysp : spacesOk y := by
    intro c hc hs
    rw [hydef, hyeq] at hc
    exact hzsp c (mem_pyStrip _ _ hc) hs
  have hynd : noDouble y := by
    rw [hydef, hyeq]
    exact pyStrip_noDouble _ hznd
  have hyhead : ∀ c ∈ y.head?, isPySpace c = false := by
    rw [hydef, hyeq]
    exact pyStrip_head _
  have hylast : ∀ c ∈ y.getLast?, isPySpace c = false := by
    rw [hydef, hyeq]
    exact pyStrip_last _
  rw [limpiar_texto_eq nfkc y hy]
  rw [aplicar_lista_no_occ correcciones y hno, hnf]
  rw [hfil1, hfil2]
  rw [show collapseWs y = y from collapseWsF_id _ _ hysp hynd]
  exact pyStrip_eq_self y hyhead hylast

theorem limpiar_texto_idempotent_of_clean_witness :
    ((∀ p ∈ correcciones,
        hasInfix p.1 (limpiar_texto (fun s => s) "  hola   mundo ".toList)
          = false) ∧
      (fun (s : List Char) => s)
        (limpiar_texto (fun s => s) "  hola   mundo ".toList) =
        limpiar_texto (fun s => s) "  hola   mundo ".toList) ∧
    limpiar_texto (fun s => s)
        (limpiar_texto (fun s => s) "  hola   mundo ".toList) =
      limpiar_texto (fun s => s) "  hola   mundo ".toList :=
  ⟨⟨by decide, rfl⟩,
   limpiar_texto_idempotent_of_clean (fun s => s)
     ("  hola   mundo ".toList) (by decide) rfl⟩

end Vectoria
